import Mathlib

/-!
Shallow embedding of the spinning-cube terminal renderer (`src/main.rs`)
and verification of the specification claims about it.

Modelling conventions:
* `f64` arithmetic is modelled by exact rational arithmetic (`ℚ`) for the
  projection pipeline and by real arithmetic (`ℝ`) for the trigonometric
  rotation and the angle accumulator.
* `usize` is modelled by `ℕ`, `isize` by `ℤ`.
* The Rust `as usize` cast on a float truncates toward zero and saturates
  at `0` for negative values; composed with `Int.toNat` after `Int.floor`
  this gives the same value for every rational input.
* Rust integer division `/` on `isize` truncates toward zero, which is
  `Int.tdiv`.
* The `loop { ... }` in `draw_line` is modelled with explicit fuel; the
  termination theorem shows the chosen fuel always suffices.
-/

/-- 3-component vector, the embedding of `nalgebra::Vector3`. -/
@[ext]
structure Vec3 (α : Type) where
  x : α
  y : α
  z : α
deriving DecidableEq, Repr

/-- Componentwise subtraction, the embedding of `Vector3` subtraction. -/
def Vec3.sub {α : Type} [Sub α] (a b : Vec3 α) : Vec3 α :=
  ⟨a.x - b.x, a.y - b.y, a.z - b.z⟩

/-- The embedding of `struct Screen`.  The `buffer: String` field of the
Rust struct is the cached result of `build`; we model `build` as a pure
function returning the character list instead of storing it. -/
structure Screen where
  width : ℕ
  height : ℕ
  pixels : List Bool
deriving DecidableEq, Repr

/-- `Screen::new`: all pixels start `false`. -/
def Screen.new (width height : ℕ) : Screen :=
  ⟨width, height, List.replicate (width * height) false⟩

/-- `Screen::set`: writes the cell at `(x, y)` only when it is in bounds;
out-of-bounds writes are silently ignored. -/
def Screen.set (s : Screen) (x y : ℕ) (value : Bool) : Screen :=
  if x < s.width ∧ y < s.height then
    { s with pixels := s.pixels.set (x + y * s.width) value }
  else s

/-- `Screen::clear`: `self.pixels.fill(false)` keeps the length and sets
every cell to `false`. -/
def Screen.clear (s : Screen) : Screen :=
  { s with pixels := List.replicate s.pixels.length false }

/-- The Rust `as usize` cast applied to a (rational-valued) float:
truncation toward zero, saturating at `0` for negative inputs.  For every
rational this agrees with `Int.toNat ∘ Int.floor` (negative values map to
`0` either way, nonnegative values truncate = floor). -/
def ratToUsize (q : ℚ) : ℕ :=
  (⌊q⌋).toNat

/-- `Screen::project_3d_point`: translate into camera space, reject points
with nonpositive depth, perspective-divide, map to screen coordinates with
the saturating cast, and reject coordinates outside the buffer. -/
def Screen.project_3d_point (s : Screen) (point camera_position : Vec3 ℚ)
    (display_surface_z : ℚ) : Option (ℕ × ℕ) :=
  let transformed_point := point.sub camera_position
  if 0 < transformed_point.z then
    let projected_x := display_surface_z / transformed_point.z * transformed_point.x
    let projected_y := display_surface_z / transformed_point.z * transformed_point.y
    let screen_x := ratToUsize ((projected_x + 1) * 0.5 * (s.width : ℚ))
    let screen_y := ratToUsize ((1 - (projected_y + 1) * 0.5) * (s.height : ℚ))
    if screen_x < s.width ∧ screen_y < s.height then
      some (screen_x, screen_y)
    else
      none
  else
    none

/-- Modelled from the spec's screen-mapping sentence: the mathematical
floor of the x screen coordinate (no saturation). -/
def specScreenX (width : ℕ) (projected_x : ℚ) : ℤ :=
  ⌊(projected_x + 1) * 0.5 * (width : ℚ)⌋

/-- Modelled from the spec's screen-mapping sentence: the mathematical
floor of the y screen coordinate (no saturation). -/
def specScreenY (height : ℕ) (projected_y : ℚ) : ℤ :=
  ⌊(1 - (projected_y + 1) * 0.5) * (height : ℚ)⌋

/-- The per-call constants of `Screen::draw_line`: endpoint, absolute
deltas, step signs, and the initial error term. -/
structure LineParams where
  x0 : ℤ
  y0 : ℤ
  xe : ℤ
  ye : ℤ
  dx : ℤ
  dy : ℤ
  sx : ℤ
  sy : ℤ
  err0 : ℤ
deriving DecidableEq, Repr

/-- Computes the `draw_line` constants from the two `usize` endpoints,
exactly as the Rust prologue does (`abs` of the `isize` difference, step
sign from the `usize` comparison, `err = (if dx > dy then dx else -dy)/2`
with truncating division). -/
def mkLineParams (start endp : ℕ × ℕ) : LineParams :=
  let x0 : ℤ := start.1
  let y0 : ℤ := start.2
  let xe : ℤ := endp.1
  let ye : ℤ := endp.2
  let dx := |xe - x0|
  let dy := |ye - y0|
  let sx : ℤ := if start.1 < endp.1 then 1 else -1
  let sy : ℤ := if start.2 < endp.2 then 1 else -1
  let err0 := Int.tdiv (if dx > dy then dx else -dy) 2
  ⟨x0, y0, xe, ye, dx, dy, sx, sy, err0⟩

/-- The mutable state of the `draw_line` loop. -/
structure LineState where
  x : ℤ
  y : ℤ
  err : ℤ
  scr : Screen
deriving DecidableEq, Repr

/-- One-loop-at-a-time embedding of the `loop { ... }` in
`Screen::draw_line`, with explicit fuel (`none` means the fuel ran out
before the loop hit its `break`; the termination theorem shows the fuel
used by `Screen.draw_line` always suffices).  Each iteration writes the
current cell when it is in bounds, breaks when the current point equals
the endpoint, and otherwise steps `x` and/or `y` with the shared error
term. -/
def lineGo (P : LineParams) : ℕ → LineState → Option LineState
  | 0, _ => none
  | fuel + 1, st =>
    let scr1 :=
      if 0 ≤ st.x ∧ st.x < (st.scr.width : ℤ) ∧ 0 ≤ st.y ∧ st.y < (st.scr.height : ℤ) then
        st.scr.set st.x.toNat st.y.toNat true
      else st.scr
    if st.x = P.xe ∧ st.y = P.ye then
      some { st with scr := scr1 }
    else
      let e2 := st.err
      let errx := if e2 > -P.dx then st.err - P.dy else st.err
      let xn := if e2 > -P.dx then st.x + P.sx else st.x
      let erry := if e2 < P.dy then errx + P.dx else errx
      let yn := if e2 < P.dy then st.y + P.sy else st.y
      lineGo P fuel ⟨xn, yn, erry, scr1⟩

/-- The sequence of `(x, y)` positions the `draw_line` loop visits
(bounded by the same fuel), independent of the screen contents. -/
def lineVisits (P : LineParams) : ℕ → ℤ → ℤ → ℤ → List (ℤ × ℤ)
  | 0, _, _, _ => []
  | fuel + 1, x, y, err =>
    (x, y) ::
      (if x = P.xe ∧ y = P.ye then []
       else
        let e2 := err
        let errx := if e2 > -P.dx then err - P.dy else err
        let xn := if e2 > -P.dx then x + P.sx else x
        let erry := if e2 < P.dy then errx + P.dx else errx
        let yn := if e2 < P.dy then y + P.sy else y
        lineVisits P fuel xn yn erry)

/-- `Screen::draw_line`, assembled from the prologue and the fueled loop.
The fuel `dx + dy + 1` is proved sufficient by the termination theorem;
the `none` branch is unreachable. -/
def Screen.draw_line (s : Screen) (start endp : ℕ × ℕ) : Screen :=
  let P := mkLineParams start endp
  match lineGo P (P.dx.toNat + P.dy.toNat + 1) ⟨P.x0, P.y0, P.err0, s⟩ with
  | some st => st.scr
  | none => s

/-- `main`'s edge-drawing stage: for each edge, look both indices up in
the projected list and draw the line only when both lookups succeed. -/
def drawEdges (s : Screen) (projected : List (ℕ × ℕ)) (edges : List (ℕ × ℕ)) : Screen :=
  edges.foldl
    (fun scr e =>
      match projected[e.1]?, projected[e.2]? with
      | some p0, some p1 => scr.draw_line p0 p1
      | _, _ => scr)
    s

/-- Row-chunking of the pixel list, the embedding of
`self.pixels.chunks(self.width)` (which panics on width `0`; this
function is only used with positive width). -/
def chunksGo (w : ℕ) (l : List Bool) : List (List Bool) :=
  if h : 0 < w ∧ l ≠ [] then
    l.take w :: chunksGo w (l.drop w)
  else []
termination_by l.length
decreasing_by
  simp only [List.length_drop]
  have := List.length_pos.mpr h.2
  omega

/-- The character a pixel serializes to. -/
def pixChar (b : Bool) : Char := if b then '.' else ' '

/-- `Screen::build`: serialize the pixel rows, `.` for lit cells, a space
for dark cells, a newline after every row. -/
def Screen.build (s : Screen) : List Char :=
  ((chunksGo s.width s.pixels).map (fun row => row.map pixChar ++ ['\n'])).flatten

/-- 3×3 real matrix, the embedding of `nalgebra::Matrix3` (entries listed
row-major as in `Matrix3::new`). -/
@[ext]
structure Mat3 where
  m11 : ℝ
  m12 : ℝ
  m13 : ℝ
  m21 : ℝ
  m22 : ℝ
  m23 : ℝ
  m31 : ℝ
  m32 : ℝ
  m33 : ℝ

/-- Standard matrix–vector product, the embedding of `Matrix3 * Vector3`. -/
def Mat3.mulVec (m : Mat3) (v : Vec3 ℝ) : Vec3 ℝ :=
  ⟨m.m11 * v.x + m.m12 * v.y + m.m13 * v.z,
   m.m21 * v.x + m.m22 * v.y + m.m23 * v.z,
   m.m31 * v.x + m.m32 * v.y + m.m33 * v.z⟩

/-- Standard matrix–matrix product, the embedding of `Matrix3 * Matrix3`. -/
def Mat3.mul (a b : Mat3) : Mat3 :=
  ⟨a.m11 * b.m11 + a.m12 * b.m21 + a.m13 * b.m31,
   a.m11 * b.m12 + a.m12 * b.m22 + a.m13 * b.m32,
   a.m11 * b.m13 + a.m12 * b.m23 + a.m13 * b.m33,
   a.m21 * b.m11 + a.m22 * b.m21 + a.m23 * b.m31,
   a.m21 * b.m12 + a.m22 * b.m22 + a.m23 * b.m32,
   a.m21 * b.m13 + a.m22 * b.m23 + a.m23 * b.m33,
   a.m31 * b.m11 + a.m32 * b.m21 + a.m33 * b.m31,
   a.m31 * b.m12 + a.m32 * b.m22 + a.m33 * b.m32,
   a.m31 * b.m13 + a.m32 * b.m23 + a.m33 * b.m33⟩

/-- `rotate_point`: builds the three axis rotation matrices from the
angle components, multiplies them as `rotation_x * rotation_y *
rotation_z` (left-associated, as in the source), and applies the product
to the point. -/
noncomputable def rotate_point (point rotation : Vec3 ℝ) : Vec3 ℝ :=
  let rotation_x : Mat3 :=
    ⟨1, 0, 0,
     0, Real.cos rotation.x, -Real.sin rotation.x,
     0, Real.sin rotation.x, Real.cos rotation.x⟩
  let rotation_y : Mat3 :=
    ⟨Real.cos rotation.y, 0, Real.sin rotation.y,
     0, 1, 0,
     -Real.sin rotation.y, 0, Real.cos rotation.y⟩
  let rotation_z : Mat3 :=
    ⟨Real.cos rotation.z, -Real.sin rotation.z, 0,
     Real.sin rotation.z, Real.cos rotation.z, 0,
     0, 0, 1⟩
  let rotation_matrix := (rotation_x.mul rotation_y).mul rotation_z
  rotation_matrix.mulVec point

/-- Modelled from the spec: the standard right-handed rotation matrix
about the X axis. -/
noncomputable def rotXMat (θ : ℝ) : Mat3 :=
  ⟨1, 0, 0,
   0, Real.cos θ, -Real.sin θ,
   0, Real.sin θ, Real.cos θ⟩

/-- Modelled from the spec: the standard right-handed rotation matrix
about the Y axis. -/
noncomputable def rotYMat (θ : ℝ) : Mat3 :=
  ⟨Real.cos θ, 0, Real.sin θ,
   0, 1, 0,
   -Real.sin θ, 0, Real.cos θ⟩

/-- Modelled from the spec: the standard right-handed rotation matrix
about the Z axis. -/
noncomputable def rotZMat (θ : ℝ) : Mat3 :=
  ⟨Real.cos θ, -Real.sin θ, 0,
   Real.sin θ, Real.cos θ, 0,
   0, 0, 1⟩

/-- Modelled from the spec: apply `Rz` to the point first, then `Ry`,
then `Rx` — the sequential reading `Rx(Ry(Rz(point)))`. -/
noncomputable def specRotate (point rotation : Vec3 ℝ) : Vec3 ℝ :=
  (rotXMat rotation.x).mulVec
    ((rotYMat rotation.y).mulVec
      ((rotZMat rotation.z).mulVec point))

open Classical in
/-- One pass of the end-of-cycle angle update in `main`:
`angle += 0.01; if angle >= 2.0 * PI { angle -= 2.0 * PI }`. -/
noncomputable def angleStep (angle : ℝ) : ℝ :=
  let a := angle + 0.01
  if a ≥ 2 * Real.pi then a - 2 * Real.pi else a

/-- The scalar `angle` after `n` animation cycles, starting from
`let mut angle = 0.0`. -/
noncomputable def angleAt : ℕ → ℝ
  | 0 => 0
  | n + 1 => angleStep (angleAt n)

/-- The Rust `as usize` cast on a real-modelled float: truncation toward
zero, saturating at `0` for negative inputs (same convention as
`ratToUsize`, over `ℝ` for the rotated cycle points). -/
noncomputable def realToUsize (r : ℝ) : ℕ :=
  (⌊r⌋).toNat

/-- `Screen::project_3d_point` over the real-modelled floats — the same
source function as the `ℚ` embedding, instantiated at `ℝ` so it can be
applied to the trigonometric rotated vertices of the animation cycle. -/
noncomputable def Screen.project_3d_pointR (s : Screen)
    (point camera_position : Vec3 ℝ) (display_surface_z : ℝ) : Option (ℕ × ℕ) :=
  let transformed_point := point.sub camera_position
  if 0 < transformed_point.z then
    let projected_x := display_surface_z / transformed_point.z * transformed_point.x
    let projected_y := display_surface_z / transformed_point.z * transformed_point.y
    let screen_x := realToUsize ((projected_x + 1) * 0.5 * (s.width : ℝ))
    let screen_y := realToUsize ((1 - (projected_y + 1) * 0.5) * (s.height : ℝ))
    if screen_x < s.width ∧ screen_y < s.height then
      some (screen_x, screen_y)
    else
      none
  else
    none

/-- `main`'s projection stage: `rotated_points.iter().filter_map(project)`.
Note this *compacts* the list (drops `None` results) rather than keeping a
parallel `Option` list; the claims about the cycle show that on the cube
scene every projection succeeds, so no compaction ever happens. -/
noncomputable def projectedPoints (s : Screen) (points : List (Vec3 ℝ))
    (camera_position : Vec3 ℝ) (display_surface_z : ℝ) : List (ℕ × ℕ) :=
  points.filterMap (fun p => s.project_3d_pointR p camera_position display_surface_z)

/-- The eight cube vertices of `main`. -/
def cube_vertices : List (Vec3 ℝ) :=
  [⟨-1, -1, -1⟩, ⟨1, -1, -1⟩, ⟨1, 1, -1⟩, ⟨-1, 1, -1⟩,
   ⟨-1, -1, 1⟩, ⟨1, -1, 1⟩, ⟨1, 1, 1⟩, ⟨-1, 1, 1⟩]

/-- The twelve cube edges of `main`. -/
def cube_edges : List (ℕ × ℕ) :=
  [(0, 1), (1, 2), (2, 3), (3, 0),
   (4, 5), (5, 6), (6, 7), (7, 4),
   (0, 4), (1, 5), (2, 6), (3, 7)]

/-- The fixed camera position of `main`. -/
def camera_position : Vec3 ℝ := ⟨0, 2, -5⟩

/-- The per-cycle rotation stage of `main`: every cube vertex rotated by
the angles `(angle, 0, angle)`. -/
noncomputable def rotatedPoints (θ : ℝ) : List (Vec3 ℝ) :=
  cube_vertices.map (fun point => rotate_point point ⟨θ, 0, θ⟩)

/-- The saturating cast agrees with clamping the floor at zero. -/
theorem ratToUsize_eq_max (q : ℚ) : ratToUsize q = (max ⌊q⌋ 0).toNat := by
  unfold ratToUsize
  omega

/-- Bounds check through the saturating cast, restated over `ℤ`. -/
theorem ratToUsize_lt_iff (q : ℚ) (w : ℕ) :
    ratToUsize q < w ↔ max ⌊q⌋ 0 < (w : ℤ) := by
  unfold ratToUsize
  omega

/-- C3: whenever the camera-space depth `point.z - camera.z` is
nonpositive, `project_3d_point` returns `none`; this is its only failure
mode and the function is pure. -/
theorem project_nonpositive_depth_none (s : Screen) (point camera : Vec3 ℚ)
    (dz : ℚ) (h : point.z - camera.z ≤ 0) :
    s.project_3d_point point camera dz = none := by
  have h' : ¬ (0 : ℚ) < (point.sub camera).z := by
    simp only [Vec3.sub]
    exact not_lt.mpr h
  simp [Screen.project_3d_point, h']

/-- Witness for C3 at the spec's example: point `(0,0,-5)` with camera
`(0,2,-5)` has camera-space depth `0` and projects to `none`. -/
theorem project_nonpositive_depth_none_witness :
    ((⟨0, 0, -5⟩ : Vec3 ℚ).z - (⟨0, 2, -5⟩ : Vec3 ℚ).z ≤ 0) ∧
    (Screen.new 160 80).project_3d_point ⟨0, 0, -5⟩ ⟨0, 2, -5⟩ 1 = none :=
  ⟨by norm_num,
   project_nonpositive_depth_none (Screen.new 160 80) ⟨0, 0, -5⟩ ⟨0, 2, -5⟩ 1
     (by norm_num)⟩

/-- C2 counterexample: the point `(-3,0,1)` seen from camera `(0,0,0)`
with `display_surface_z = 1` on the 160×80 screen has a *negative*
mathematical floor for its x screen coordinate (so the claim demands
"no projection"), yet the code's saturating `as usize` cast clamps it to
column `0` and returns `some (0, 40)`. -/
theorem project_negative_floor_cex :
    specScreenX 160 ((1 : ℚ) / 1 * (-3)) < 0 ∧
    (Screen.new 160 80).project_3d_point ⟨-3, 0, 1⟩ ⟨0, 0, 0⟩ 1 = some (0, 40) := by
  constructor
  · norm_num [specScreenX]
  · norm_num [Screen.project_3d_point, Vec3.sub, ratToUsize, Screen.new]
    decide

/-- C2 (amended): for camera-space depth `> 0`, the screen coordinates
are the *zero-clamped* floors `max ⌊·⌋ 0`; the bounds test only rejects
coordinates `≥ width` / `≥ height` (a negative floor is clamped to `0`
and accepted when the other coordinate is in range). -/
theorem project_screen_mapping (s : Screen) (point camera : Vec3 ℚ)
    (dz : ℚ) (h : 0 < point.z - camera.z) :
    s.project_3d_point point camera dz =
      if max (specScreenX s.width (dz / (point.z - camera.z) * (point.x - camera.x))) 0 < (s.width : ℤ) ∧
         max (specScreenY s.height (dz / (point.z - camera.z) * (point.y - camera.y))) 0 < (s.height : ℤ) then
        some ((max (specScreenX s.width (dz / (point.z - camera.z) * (point.x - camera.x))) 0).toNat,
              (max (specScreenY s.height (dz / (point.z - camera.z) * (point.y - camera.y))) 0).toNat)
      else none := by
  have h' : (0 : ℚ) < (point.sub camera).z := by
    simp only [Vec3.sub]; exact h
  simp only [Screen.project_3d_point, Vec3.sub, if_pos h', specScreenX, specScreenY]
  rw [if_congr
    (and_congr (ratToUsize_lt_iff _ _) (ratToUsize_lt_iff _ _))
    (by rw [ratToUsize_eq_max, ratToUsize_eq_max])
    rfl]
  rw [if_pos h]

/-- Witness for C2's amended theorem at the counterexample input. -/
theorem project_screen_mapping_witness :
    ((0 : ℚ) < (⟨-3, 0, 1⟩ : Vec3 ℚ).z - (⟨0, 0, 0⟩ : Vec3 ℚ).z) ∧
    (Screen.new 160 80).project_3d_point ⟨-3, 0, 1⟩ ⟨0, 0, 0⟩ 1 =
      if max (specScreenX 160 ((1 : ℚ) / ((1 : ℚ) - 0) * ((-3 : ℚ) - 0))) 0 < (160 : ℤ) ∧
         max (specScreenY 80 ((1 : ℚ) / ((1 : ℚ) - 0) * ((0 : ℚ) - 0))) 0 < (80 : ℤ) then
        some ((max (specScreenX 160 ((1 : ℚ) / ((1 : ℚ) - 0) * ((-3 : ℚ) - 0))) 0).toNat,
              (max (specScreenY 80 ((1 : ℚ) / ((1 : ℚ) - 0) * ((0 : ℚ) - 0))) 0).toNat)
      else none :=
  ⟨by norm_num,
   project_screen_mapping (Screen.new 160 80) ⟨-3, 0, 1⟩ ⟨0, 0, 0⟩ 1 (by norm_num)⟩

/-- C4: an out-of-bounds `set` is a no-op — the screen (hence also its
serialization) is unchanged. -/
theorem set_out_of_bounds_noop (s : Screen) (x y : ℕ) (v : Bool)
    (h : ¬(x < s.width ∧ y < s.height)) :
    s.set x y v = s ∧ (s.set x y v).build = s.build := by
  have h1 : s.set x y v = s := by simp [Screen.set, h]
  exact ⟨h1, by rw [h1]⟩

/-- Witness for C4 at `(x, y) = (5, 0)` on a 2×2 screen. -/
theorem set_out_of_bounds_noop_witness :
    ¬((5 : ℕ) < (Screen.new 2 2).width ∧ (0 : ℕ) < (Screen.new 2 2).height) ∧
    (Screen.new 2 2).set 5 0 true = Screen.new 2 2 :=
  ⟨by decide, (set_out_of_bounds_noop (Screen.new 2 2) 5 0 true (by decide)).1⟩

/-- C7: `rotate_point` equals the sequential application
`Rx(Ry(Rz(point)))` of the standard right-handed axis rotation matrices,
and with angles `(0,0,0)` it is the identity. -/
theorem rotate_point_spec :
    (∀ p r : Vec3 ℝ, rotate_point p r = specRotate p r) ∧
    (∀ p : Vec3 ℝ, rotate_point p ⟨0, 0, 0⟩ = p) := by
  constructor
  · intro p r
    simp only [rotate_point, specRotate, rotXMat, rotYMat, rotZMat, Mat3.mul, Mat3.mulVec]
    ext <;> ring
  · intro p
    simp only [rotate_point, Mat3.mul, Mat3.mulVec, Real.cos_zero, Real.sin_zero]
    ext <;> ring

/-- C8: starting from `0` and applying the per-cycle update
(`+ 0.01`, subtract `2π` when the sum reaches it), the angle stays in
`[0, 2π)` after every cycle. -/
theorem angle_stays_in_range : ∀ n : ℕ, 0 ≤ angleAt n ∧ angleAt n < 2 * Real.pi := by
  have hpi : (0.01 : ℝ) < 2 * Real.pi := by
    nlinarith [Real.pi_gt_three]
  intro n
  induction n with
  | zero =>
    refine ⟨le_refl _, ?_⟩
    · show (0 : ℝ) < 2 * Real.pi
      positivity
  | succ n ih =>
    obtain ⟨h0, h2⟩ := ih
    simp only [angleAt, angleStep]
    split_ifs with hge
    · constructor
      · linarith
      · linarith
    · constructor
      · linarith
      · linarith [not_le.mp hge]

/-- Unfolding of one `draw_line` loop iteration that does not hit the
`break`. -/
theorem lineGo_succ_of_ne (P : LineParams) (n : ℕ) (st : LineState)
    (hne : ¬(st.x = P.xe ∧ st.y = P.ye)) :
    lineGo P (n + 1) st =
      lineGo P n
        ⟨(if st.err > -P.dx then st.x + P.sx else st.x),
         (if st.err < P.dy then st.y + P.sy else st.y),
         (if st.err < P.dy then (if st.err > -P.dx then st.err - P.dy else st.err) + P.dx
          else (if st.err > -P.dx then st.err - P.dy else st.err)),
         (if 0 ≤ st.x ∧ st.x < (st.scr.width : ℤ) ∧ 0 ≤ st.y ∧ st.y < (st.scr.height : ℤ)
          then st.scr.set st.x.toNat st.y.toNat true else st.scr)⟩ := by
  simp only [lineGo]
  rw [if_neg hne]

/-- Unfolding of the final `draw_line` loop iteration (current point is
the endpoint): write the cell if in bounds and `break`. -/
theorem lineGo_succ_of_eq (P : LineParams) (n : ℕ) (st : LineState)
    (hx : st.x = P.xe) (hy : st.y = P.ye) :
    lineGo P (n + 1) st =
      some { st with scr :=
        (if 0 ≤ st.x ∧ st.x < (st.scr.width : ℤ) ∧ 0 ≤ st.y ∧ st.y < (st.scr.height : ℤ)
         then st.scr.set st.x.toNat st.y.toNat true else st.scr) } := by
  simp only [lineGo]
  rw [if_pos ⟨hx, hy⟩]

/-- Basic arithmetic facts about the `draw_line` prologue constants. -/
theorem lineParams_props (start endp : ℕ × ℕ) :
    (mkLineParams start endp).sx = 1 ∨ (mkLineParams start endp).sx = -1 := by
  simp only [mkLineParams]
  split_ifs <;> simp

/-- The step sign moves `x0` to `xe` in exactly `dx` steps. -/
theorem lineParams_x_reaches (start endp : ℕ × ℕ) :
    (mkLineParams start endp).x0 +
      (mkLineParams start endp).dx * (mkLineParams start endp).sx =
      (mkLineParams start endp).xe := by
  simp only [mkLineParams]
  rcases Nat.lt_or_ge start.1 endp.1 with h | h
  · rw [if_pos h, abs_of_nonneg (by omega : (0 : ℤ) ≤ (endp.1 : ℤ) - (start.1 : ℤ))]
    ring
  · rw [if_neg (by omega), abs_of_nonpos (by omega : ((endp.1 : ℤ) - (start.1 : ℤ)) ≤ 0)]
    ring

/-- The step sign moves `y0` to `ye` in exactly `dy` steps. -/
theorem lineParams_y_reaches (start endp : ℕ × ℕ) :
    (mkLineParams start endp).y0 +
      (mkLineParams start endp).dy * (mkLineParams start endp).sy =
      (mkLineParams start endp).ye := by
  simp only [mkLineParams]
  rcases Nat.lt_or_ge start.2 endp.2 with h | h
  · rw [if_pos h, abs_of_nonneg (by omega : (0 : ℤ) ≤ (endp.2 : ℤ) - (start.2 : ℤ))]
    ring
  · rw [if_neg (by omega), abs_of_nonpos (by omega : ((endp.2 : ℤ) - (start.2 : ℤ)) ≤ 0)]
    ring

/-- The deltas are nonnegative. -/
theorem lineParams_dx_nonneg (start endp : ℕ × ℕ) :
    0 ≤ (mkLineParams start endp).dx ∧ 0 ≤ (mkLineParams start endp).dy := by
  simp only [mkLineParams]
  exact ⟨abs_nonneg _, abs_nonneg _⟩

/-- More fuel never turns a completed `draw_line` loop run into an
incomplete one (and the result is unchanged). -/
theorem lineGo_fuel_mono (P : LineParams) :
    ∀ (n m : ℕ) (st st' : LineState), lineGo P n st = some st' → n ≤ m →
      lineGo P m st = some st' := by
  intro n
  induction n with
  | zero => intro m st st' h; simp [lineGo] at h
  | succ n ih =>
    intro m st st' h hm
    obtain ⟨m', rfl⟩ : ∃ m', m = m' + 1 := ⟨m - 1, by omega⟩
    by_cases hend : st.x = P.xe ∧ st.y = P.ye
    · rw [lineGo_succ_of_eq P n st hend.1 hend.2] at h
      rw [lineGo_succ_of_eq P m' st hend.1 hend.2]
      exact h
    · rw [lineGo_succ_of_ne P n st hend] at h
      rw [lineGo_succ_of_ne P m' st hend]
      exact ih m' _ st' h (by omega)

/-- Step sign fact for `sy`. -/
theorem lineParams_props_sy (start endp : ℕ × ℕ) :
    (mkLineParams start endp).sy = 1 ∨ (mkLineParams start endp).sy = -1 := by
  simp only [mkLineParams]
  split_ifs <;> simp

/-- Invariant run of the `draw_line` loop in the x-major case
(`dy < dx`): from a state that has taken `a` x-steps and `b` y-steps and
whose error term satisfies the Bresenham invariant `0 ≤ err ≤ dx - 1`,
the loop `break`s within the remaining `dx - a` iterations (plus the
final one). -/
theorem lineGo_reaches_xmajor (P : LineParams)
    (hsx : P.sx = 1 ∨ P.sx = -1)
    (hx : P.x0 + P.dx * P.sx = P.xe)
    (hy : P.y0 + P.dy * P.sy = P.ye)
    (hdy0 : 0 ≤ P.dy) (hAB : P.dy < P.dx) :
    ∀ (n : ℕ) (a b : ℤ) (st : LineState),
      0 ≤ a → a + n = P.dx → 0 ≤ b → b ≤ P.dy →
      st.x = P.x0 + a * P.sx → st.y = P.y0 + b * P.sy →
      st.err = Int.tdiv P.dx 2 - a * P.dy + b * P.dx →
      0 ≤ st.err → st.err ≤ P.dx - 1 →
      (lineGo P (n + 1) st).isSome = true := by
  have hdx1 : (1 : ℤ) ≤ P.dx := by omega
  have htd : Int.tdiv P.dx 2 = P.dx / 2 := Int.tdiv_eq_ediv (by omega) (by norm_num)
  have hd2a : 0 ≤ P.dx / 2 := by omega
  have hd2b : P.dx / 2 ≤ P.dx - 1 := by omega
  intro n
  induction n with
  | zero =>
    intro a b st ha0 han hb0 hbdy hstx hsty herr herr0 herr1
    have ha : a = P.dx := by omega
    have hb : b = P.dy := by
      by_contra hbne
      have h1 : (1 : ℤ) ≤ P.dy - b := by omega
      have h2 : 1 * P.dx ≤ (P.dy - b) * P.dx :=
        mul_le_mul_of_nonneg_right h1 (by omega)
      rw [sub_mul, one_mul] at h2
      rw [ha, htd] at herr
      have hcomm : P.dx * P.dy = P.dy * P.dx := mul_comm _ _
      linarith
    have hxe : st.x = P.xe := by rw [hstx, ha]; exact hx
    have hye : st.y = P.ye := by rw [hsty, hb]; exact hy
    rw [lineGo_succ_of_eq P 0 st hxe hye]
    rfl
  | succ n ih =>
    intro a b st ha0 han hb0 hbdy hstx hsty herr herr0 herr1
    have haltdx : a < P.dx := by omega
    have hne : ¬(st.x = P.xe ∧ st.y = P.ye) := by
      rintro ⟨hxe, -⟩
      rw [hstx] at hxe
      rcases hsx with h | h <;> rw [h] at hxe hx <;> omega
    have hxstep : st.err > -P.dx := by linarith
    rw [lineGo_succ_of_ne P (n + 1) st hne]
    rcases lt_or_le st.err P.dy with hyl | hyg
    · -- both x and y step
      have hblt : b < P.dy := by
        by_contra hbge
        have hb : b = P.dy := by omega
        have h1 : P.dy * 1 ≤ P.dy * (P.dx - a) :=
          mul_le_mul_of_nonneg_left (by omega) hdy0
        rw [mul_sub, mul_one] at h1
        rw [hb, htd] at herr
        have hcomm : a * P.dy = P.dy * a := mul_comm _ _
        have hcomm2 : P.dy * P.dx = P.dy * P.dx := rfl
        linarith
      simp only [if_pos hxstep, if_pos hyl]
      refine ih (a + 1) (b + 1) _ (by omega) (by omega) (by omega) (by omega)
        ?_ ?_ ?_ ?_ ?_
      · show st.x + P.sx = P.x0 + (a + 1) * P.sx
        rw [hstx]; ring
      · show st.y + P.sy = P.y0 + (b + 1) * P.sy
        rw [hsty]; ring
      · show st.err - P.dy + P.dx = Int.tdiv P.dx 2 - (a + 1) * P.dy + (b + 1) * P.dx
        rw [herr]; ring
      · show (0 : ℤ) ≤ st.err - P.dy + P.dx
        linarith
      · show st.err - P.dy + P.dx ≤ P.dx - 1
        linarith
    · -- only x steps
      simp only [if_pos hxstep, if_neg (not_lt.mpr hyg)]
      refine ih (a + 1) b _ (by omega) (by omega) (by omega) (by omega)
        ?_ ?_ ?_ ?_ ?_
      · show st.x + P.sx = P.x0 + (a + 1) * P.sx
        rw [hstx]; ring
      · show st.y = P.y0 + b * P.sy
        exact hsty
      · show st.err - P.dy = Int.tdiv P.dx 2 - (a + 1) * P.dy + b * P.dx
        rw [herr]; ring
      · show (0 : ℤ) ≤ st.err - P.dy
        linarith
      · show st.err - P.dy ≤ P.dx - 1
        linarith

/-- Invariant run of the `draw_line` loop in the y-major case
(`dx ≤ dy`, `dy ≥ 1`): the error term satisfies `-(dy-1) ≤ err ≤ 0`, `y`
steps every iteration, and the loop `break`s within the remaining
`dy - b` iterations (plus the final one). -/
theorem lineGo_reaches_ymajor (P : LineParams)
    (hsy : P.sy = 1 ∨ P.sy = -1)
    (hx : P.x0 + P.dx * P.sx = P.xe)
    (hy : P.y0 + P.dy * P.sy = P.ye)
    (hdx0 : 0 ≤ P.dx) (hAB : P.dx ≤ P.dy) (hdy1 : (1 : ℤ) ≤ P.dy) :
    ∀ (n : ℕ) (a b : ℤ) (st : LineState),
      0 ≤ b → b + n = P.dy → 0 ≤ a → a ≤ P.dx →
      st.x = P.x0 + a * P.sx → st.y = P.y0 + b * P.sy →
      st.err = Int.tdiv (-P.dy) 2 - a * P.dy + b * P.dx →
      -(P.dy - 1) ≤ st.err → st.err ≤ 0 →
      (lineGo P (n + 1) st).isSome = true := by
  have htd : Int.tdiv (-P.dy) 2 = -(P.dy / 2) := by
    rw [Int.neg_tdiv, Int.tdiv_eq_ediv (by omega) (by norm_num)]
  have hd2a : 0 ≤ P.dy / 2 := by omega
  have hd2b : P.dy / 2 ≤ P.dy - 1 := by omega
  intro n
  induction n with
  | zero =>
    intro a b st hb0 hbn ha0 hadx hstx hsty herr herr0 herr1
    have hb : b = P.dy := by omega
    have ha : a = P.dx := by
      by_contra hane
      have h1 : P.dy * 1 ≤ P.dy * (P.dx - a) :=
        mul_le_mul_of_nonneg_left (by omega) (by omega)
      rw [mul_sub, mul_one] at h1
      rw [hb, htd] at herr
      have hcomm : a * P.dy = P.dy * a := mul_comm _ _
      have hcomm2 : P.dy * P.dx = P.dy * P.dx := rfl
      linarith
    have hxe : st.x = P.xe := by rw [hstx, ha]; exact hx
    have hye : st.y = P.ye := by rw [hsty, hb]; exact hy
    rw [lineGo_succ_of_eq P 0 st hxe hye]
    rfl
  | succ n ih =>
    intro a b st hb0 hbn ha0 hadx hstx hsty herr herr0 herr1
    have hbltdy : b < P.dy := by omega
    have hne : ¬(st.x = P.xe ∧ st.y = P.ye) := by
      rintro ⟨-, hye⟩
      rw [hsty] at hye
      rcases hsy with h | h <;> rw [h] at hye hy <;> omega
    have hystep : st.err < P.dy := by linarith
    rw [lineGo_succ_of_ne P (n + 1) st hne]
    rcases lt_or_le (-P.dx) st.err with hxl | hxg
    · -- both x and y step
      have haltdx : a < P.dx := by
        by_contra hage
        have ha : a = P.dx := by omega
        have h1 : P.dx * (b - P.dy) ≤ P.dx * (-1) :=
          mul_le_mul_of_nonneg_left (by omega) hdx0
        rw [mul_sub] at h1
        rw [ha, htd] at herr
        have hcomm : b * P.dx = P.dx * b := mul_comm _ _
        have hcomm2 : P.dx * P.dy = P.dx * P.dy := rfl
        have : st.err ≤ -P.dx := by linarith
        linarith
      have hxstep : st.err > -P.dx := hxl
      simp only [if_pos hxstep, if_pos hystep]
      refine ih (a + 1) (b + 1) _ (by omega) (by omega) (by omega) (by omega)
        ?_ ?_ ?_ ?_ ?_
      · show st.x + P.sx = P.x0 + (a + 1) * P.sx
        rw [hstx]; ring
      · show st.y + P.sy = P.y0 + (b + 1) * P.sy
        rw [hsty]; ring
      · show st.err - P.dy + P.dx = Int.tdiv (-P.dy) 2 - (a + 1) * P.dy + (b + 1) * P.dx
        rw [herr]; ring
      · show -(P.dy - 1) ≤ st.err - P.dy + P.dx
        linarith
      · show st.err - P.dy + P.dx ≤ 0
        linarith
    · -- only y steps
      have hxstop : ¬(st.err > -P.dx) := not_lt.mpr hxg
      simp only [if_neg hxstop, if_pos hystep]
      refine ih a (b + 1) _ (by omega) (by omega) (by omega) (by omega)
        ?_ ?_ ?_ ?_ ?_
      · show st.x = P.x0 + a * P.sx
        exact hstx
      · show st.y + P.sy = P.y0 + (b + 1) * P.sy
        rw [hsty]; ring
      · show st.err + P.dx = Int.tdiv (-P.dy) 2 - a * P.dy + (b + 1) * P.dx
        rw [herr]; ring
      · show -(P.dy - 1) ≤ st.err + P.dx
        linarith
      · show st.err + P.dx ≤ 0
        linarith

/-- C10: for every pair of endpoints and every screen, the `draw_line`
traversal loop reaches its `break` (current point = end point) within the
fuel `dx + dy + 1` that `Screen.draw_line` supplies — the loop always
terminates. -/
theorem draw_line_loop_terminates (s : Screen) (start endp : ℕ × ℕ) :
    (lineGo (mkLineParams start endp)
      ((mkLineParams start endp).dx.toNat + (mkLineParams start endp).dy.toNat + 1)
      ⟨(mkLineParams start endp).x0, (mkLineParams start endp).y0,
       (mkLineParams start endp).err0, s⟩).isSome = true := by
  set P := mkLineParams start endp with hP
  set init : LineState := ⟨P.x0, P.y0, P.err0, s⟩ with hinit
  have hsx : P.sx = 1 ∨ P.sx = -1 := lineParams_props start endp
  have hsy : P.sy = 1 ∨ P.sy = -1 := lineParams_props_sy start endp
  have hx : P.x0 + P.dx * P.sx = P.xe := lineParams_x_reaches start endp
  have hy : P.y0 + P.dy * P.sy = P.ye := lineParams_y_reaches start endp
  obtain ⟨hdx0, hdy0⟩ := lineParams_dx_nonneg start endp
  rw [← hP] at hdx0 hdy0
  have herr0 : P.err0 = Int.tdiv (if P.dx > P.dy then P.dx else -P.dy) 2 := rfl
  by_cases hA : P.dy < P.dx
  · -- x-major case
    have hdx1 : (1 : ℤ) ≤ P.dx := by omega
    have htd : Int.tdiv P.dx 2 = P.dx / 2 := Int.tdiv_eq_ediv (by omega) (by norm_num)
    have hrun : (lineGo P (P.dx.toNat + 1) init).isSome = true := by
      apply lineGo_reaches_xmajor P hsx hx hy hdy0 hA P.dx.toNat 0 0 init
        (by omega) (by omega) (by omega) (by omega)
      · show P.x0 = P.x0 + 0 * P.sx
        ring
      · show P.y0 = P.y0 + 0 * P.sy
        ring
      · show P.err0 = Int.tdiv P.dx 2 - 0 * P.dy + 0 * P.dx
        rw [herr0, if_pos hA]; ring
      · show (0 : ℤ) ≤ P.err0
        rw [herr0, if_pos hA, htd]; omega
      · show P.err0 ≤ P.dx - 1
        rw [herr0, if_pos hA, htd]; omega
    obtain ⟨st', hst'⟩ := Option.isSome_iff_exists.mp hrun
    rw [lineGo_fuel_mono P (P.dx.toNat + 1) (P.dx.toNat + P.dy.toNat + 1) init st' hst'
      (by omega)]
    rfl
  · by_cases hB : (1 : ℤ) ≤ P.dy
    · -- y-major case
      have hBA : P.dx ≤ P.dy := by omega
      have htd : Int.tdiv (-P.dy) 2 = -(P.dy / 2) := by
        rw [Int.neg_tdiv, Int.tdiv_eq_ediv (by omega) (by norm_num)]
      have hrun : (lineGo P (P.dy.toNat + 1) init).isSome = true := by
        apply lineGo_reaches_ymajor P hsy hx hy hdx0 hBA hB P.dy.toNat 0 0 init
          (by omega) (by omega) (by omega) (by omega)
        · show P.x0 = P.x0 + 0 * P.sx
          ring
        · show P.y0 = P.y0 + 0 * P.sy
          ring
        · show P.err0 = Int.tdiv (-P.dy) 2 - 0 * P.dy + 0 * P.dx
          rw [herr0, if_neg (by omega)]; ring
        · show -(P.dy - 1) ≤ P.err0
          rw [herr0, if_neg (by omega), htd]; omega
        · show P.err0 ≤ 0
          rw [herr0, if_neg (by omega), htd]; omega
      obtain ⟨st', hst'⟩ := Option.isSome_iff_exists.mp hrun
      rw [lineGo_fuel_mono P (P.dy.toNat + 1) (P.dx.toNat + P.dy.toNat + 1) init st' hst'
        (by omega)]
      rfl
    · -- degenerate case: dx = dy = 0, the very first iteration breaks
      have hdx : P.dx = 0 := by omega
      have hdy : P.dy = 0 := by omega
      have hxe : init.x = P.xe := by
        show P.x0 = P.xe
        rw [hdx] at hx; linarith
      have hye : init.y = P.ye := by
        show P.y0 = P.ye
        rw [hdy] at hy; linarith
      rw [lineGo_succ_of_eq P (P.dx.toNat + P.dy.toNat) init hxe hye]
      rfl

/-- `set` never changes the screen dimensions. -/
theorem Screen.set_width (s : Screen) (x y : ℕ) (v : Bool) :
    (s.set x y v).width = s.width := by
  unfold Screen.set
  split_ifs <;> rfl

/-- `set` never changes the screen dimensions. -/
theorem Screen.set_height (s : Screen) (x y : ℕ) (v : Bool) :
    (s.set x y v).height = s.height := by
  unfold Screen.set
  split_ifs <;> rfl

/-- `set` never changes the number of cells. -/
theorem Screen.set_length (s : Screen) (x y : ℕ) (v : Bool) :
    (s.set x y v).pixels.length = s.pixels.length := by
  unfold Screen.set
  split_ifs <;> simp

/-- Row-major cell indices are injective on in-bounds columns. -/
theorem cellIndex_inj {w : ℕ} (x a y b : ℕ) (hx : x < w) (ha : a < w) :
    x + y * w = a + b * w ↔ x = a ∧ y = b := by
  constructor
  · intro h
    have hw : 0 < w := by omega
    have hxmod : (x + y * w) % w = x := by
      rw [Nat.add_mul_mod_self_right, Nat.mod_eq_of_lt hx]
    have hamod : (a + b * w) % w = a := by
      rw [Nat.add_mul_mod_self_right, Nat.mod_eq_of_lt ha]
    have hxa : x = a := by rw [← hxmod, ← hamod, h]
    have h2 : y * w = b * w := by
      subst hxa
      exact Nat.add_left_cancel h
    exact ⟨hxa, Nat.eq_of_mul_eq_mul_right hw h2⟩
  · rintro ⟨rfl, rfl⟩
    rfl

/-- Reading a cell after an in-bounds `set`: the written cell holds the
new value, every other cell is unchanged. -/
theorem Screen.set_getD (s : Screen) (hlen : s.pixels.length = s.width * s.height)
    (a b x y : ℕ) (ha : a < s.width) (hb : b < s.height)
    (hx : x < s.width) (hy : y < s.height) :
    (s.set a b true).pixels.getD (x + y * s.width) false =
      if x = a ∧ y = b then true else s.pixels.getD (x + y * s.width) false := by
  unfold Screen.set
  rw [if_pos ⟨ha, hb⟩]
  simp only [List.getD_eq_getElem?_getD, List.getElem?_set]
  have hidx : a + b * s.width < s.pixels.length := by
    rw [hlen]
    calc a + b * s.width < s.width + b * s.width := by omega
    _ = (b + 1) * s.width := by ring
    _ ≤ s.height * s.width := Nat.mul_le_mul_right _ (by omega)
    _ = s.width * s.height := Nat.mul_comm _ _
  by_cases hcell : x = a ∧ y = b
  · obtain ⟨rfl, rfl⟩ := hcell
    simp [hidx]
  · rw [if_neg, if_neg hcell]
    intro hcontra
    exact hcell ((cellIndex_inj x a y b hx ha).mp hcontra.symm)

/-- Every cell of a fresh screen is dark. -/
theorem Screen.new_getD (w h : ℕ) (i : ℕ) :
    (Screen.new w h).pixels.getD i false = false := by
  simp [Screen.new, List.getD_eq_getElem?_getD, List.getElem?_replicate]
  split_ifs <;> rfl

/-- Unfolding equation for `Screen.draw_line`. -/
theorem Screen.draw_line_def (s : Screen) (start endp : ℕ × ℕ) :
    s.draw_line start endp =
      match lineGo (mkLineParams start endp)
        ((mkLineParams start endp).dx.toNat + (mkLineParams start endp).dy.toNat + 1)
        ⟨(mkLineParams start endp).x0, (mkLineParams start endp).y0,
         (mkLineParams start endp).err0, s⟩ with
      | some st => st.scr
      | none => s := rfl

/-- C6: on a fresh (cleared) buffer of width and height at least 6,
`draw_line (0,0) (5,5)` lights exactly the six diagonal cells
`(0,0) … (5,5)`, and the initial error term is
`(dx > dy ? dx : -dy) / 2 = (-5)/2 = -2` under truncating integer
division. -/
theorem draw_line_diagonal (w h : ℕ) (hw : 6 ≤ w) (hh : 6 ≤ h) :
    (∀ x y : ℕ, x < w → y < h →
      ((Screen.new w h).draw_line (0, 0) (5, 5)).pixels.getD (x + y * w) false =
        if x = y ∧ x ≤ 5 then true else false) ∧
    (mkLineParams (0, 0) (5, 5)).err0 = -2 := by
  have hP : mkLineParams (0, 0) (5, 5) = ⟨0, 0, 5, 5, 5, 5, 1, 1, -2⟩ := by
    simp only [mkLineParams]
    norm_num
    decide
  refine ⟨?_, by rw [hP]⟩
  set Pc : LineParams := ⟨0, 0, 5, 5, 5, 5, 1, 1, -2⟩ with hPc
  -- one non-final iteration of the diagonal run
  have step : ∀ (i : ℕ) (n : ℕ) (scr : Screen), i < 5 → scr.width = w → scr.height = h →
      lineGo Pc (n + 1) ⟨(i : ℤ), (i : ℤ), -2, scr⟩ =
        lineGo Pc n ⟨(i : ℤ) + 1, (i : ℤ) + 1, -2, scr.set i i true⟩ := by
    intro i n scr hi hsw hsh
    have hne : ¬(((⟨(i : ℤ), (i : ℤ), -2, scr⟩ : LineState).x = Pc.xe) ∧
        ((⟨(i : ℤ), (i : ℤ), -2, scr⟩ : LineState).y = Pc.ye)) := by
      show ¬((i : ℤ) = 5 ∧ (i : ℤ) = 5)
      omega
    rw [lineGo_succ_of_ne Pc n _ hne]
    refine congrArg (lineGo Pc n) ?_
    have hx : (if ((⟨(i : ℤ), (i : ℤ), -2, scr⟩ : LineState).err > -Pc.dx) then
        (i : ℤ) + Pc.sx else (i : ℤ)) = (i : ℤ) + 1 := by
      show (if ((-2 : ℤ) > -5) then (i : ℤ) + 1 else (i : ℤ)) = (i : ℤ) + 1
      norm_num
    have hbnd : 0 ≤ ((i : ℤ)) ∧ (i : ℤ) < (scr.width : ℤ) ∧
        0 ≤ ((i : ℤ)) ∧ (i : ℤ) < (scr.height : ℤ) := by
      rw [hsw, hsh]
      refine ⟨by positivity, by exact_mod_cast (by omega : i < w), by positivity,
        by exact_mod_cast (by omega : i < h)⟩
    show LineState.mk _ _ _ _ = LineState.mk _ _ _ _
    simp only [LineState.mk.injEq]
    refine ⟨?_, ?_, ?_, ?_⟩
    · show (if ((-2 : ℤ) > -5) then (i : ℤ) + 1 else (i : ℤ)) = (i : ℤ) + 1
      norm_num
    · show (if ((-2 : ℤ) < 5) then (i : ℤ) + 1 else (i : ℤ)) = (i : ℤ) + 1
      norm_num
    · show (if ((-2 : ℤ) < 5) then
          (if ((-2 : ℤ) > -5) then (-2 : ℤ) - 5 else -2) + 5
          else (if ((-2 : ℤ) > -5) then (-2 : ℤ) - 5 else -2)) = -2
      norm_num
    · show (if 0 ≤ ((i : ℤ)) ∧ (i : ℤ) < (scr.width : ℤ) ∧
          0 ≤ ((i : ℤ)) ∧ (i : ℤ) < (scr.height : ℤ) then
          scr.set (i : ℤ).toNat (i : ℤ).toNat true else scr) = scr.set i i true
      rw [if_pos hbnd]
      simp
  -- the final iteration
  have stop : ∀ (n : ℕ) (scr : Screen), scr.width = w → scr.height = h →
      lineGo Pc (n + 1) ⟨5, 5, -2, scr⟩ = some ⟨5, 5, -2, scr.set 5 5 true⟩ := by
    intro n scr hsw hsh
    rw [lineGo_succ_of_eq Pc n _ (by rfl) (by rfl)]
    have hbnd : 0 ≤ (5 : ℤ) ∧ (5 : ℤ) < (scr.width : ℤ) ∧
        0 ≤ (5 : ℤ) ∧ (5 : ℤ) < (scr.height : ℤ) := by
      rw [hsw, hsh]
      refine ⟨by norm_num, by exact_mod_cast (by omega : 5 < w), by norm_num,
        by exact_mod_cast (by omega : 5 < h)⟩
    rw [if_pos hbnd]
    rfl
  -- name the intermediate screens
  set s0 := Screen.new w h with hs0
  set s1 := s0.set 0 0 true with hs1
  set s2 := s1.set 1 1 true with hs2
  set s3 := s2.set 2 2 true with hs3
  set s4 := s3.set 3 3 true with hs4
  set s5 := s4.set 4 4 true with hs5
  set s6 := s5.set 5 5 true with hs6
  have hw0 : s0.width = w := rfl
  have hh0 : s0.height = h := rfl
  have hw1 : s1.width = w := by rw [hs1, Screen.set_width, hw0]
  have hh1 : s1.height = h := by rw [hs1, Screen.set_height, hh0]
  have hw2 : s2.width = w := by rw [hs2, Screen.set_width, hw1]
  have hh2 : s2.height = h := by rw [hs2, Screen.set_height, hh1]
  have hw3 : s3.width = w := by rw [hs3, Screen.set_width, hw2]
  have hh3 : s3.height = h := by rw [hs3, Screen.set_height, hh2]
  have hw4 : s4.width = w := by rw [hs4, Screen.set_width, hw3]
  have hh4 : s4.height = h := by rw [hs4, Screen.set_height, hh3]
  have hw5 : s5.width = w := by rw [hs5, Screen.set_width, hw4]
  have hh5 : s5.height = h := by rw [hs5, Screen.set_height, hh4]
  -- run the whole loop
  have hrun : (Screen.new w h).draw_line (0, 0) (5, 5) = s6 := by
    rw [Screen.draw_line_def, hP]
    have hfuel : Pc.dx.toNat + Pc.dy.toNat + 1 = 11 := rfl
    have hinit : (⟨Pc.x0, Pc.y0, Pc.err0, s0⟩ : LineState) = ⟨0, 0, -2, s0⟩ := rfl
    rw [hfuel, hinit]
    have e0 : lineGo Pc 11 ⟨0, 0, -2, s0⟩ = lineGo Pc 10 ⟨1, 1, -2, s1⟩ := by
      have := step 0 10 s0 (by norm_num) hw0 hh0
      norm_num at this
      exact this
    have e1 : lineGo Pc 10 ⟨1, 1, -2, s1⟩ = lineGo Pc 9 ⟨2, 2, -2, s2⟩ := by
      have := step 1 9 s1 (by norm_num) hw1 hh1
      norm_num at this
      exact this
    have e2 : lineGo Pc 9 ⟨2, 2, -2, s2⟩ = lineGo Pc 8 ⟨3, 3, -2, s3⟩ := by
      have := step 2 8 s2 (by norm_num) hw2 hh2
      norm_num at this
      exact this
    have e3 : lineGo Pc 8 ⟨3, 3, -2, s3⟩ = lineGo Pc 7 ⟨4, 4, -2, s4⟩ := by
      have := step 3 7 s3 (by norm_num) hw3 hh3
      norm_num at this
      exact this
    have e4 : lineGo Pc 7 ⟨4, 4, -2, s4⟩ = lineGo Pc 6 ⟨5, 5, -2, s5⟩ := by
      have := step 4 6 s4 (by norm_num) hw4 hh4
      norm_num at this
      exact this
    have e5 : lineGo Pc 6 ⟨5, 5, -2, s5⟩ = some ⟨5, 5, -2, s6⟩ := by
      have := stop 5 s5 hw5 hh5
      exact this
    rw [e0, e1, e2, e3, e4, e5]
  rw [hrun]
  -- characterize the cells of the six-fold set chain
  intro x y hx hy
  have hlen0 : s0.pixels.length = s0.width * s0.height := by
    show (List.replicate (w * h) false).length = w * h
    simp
  have hlen1 : s1.pixels.length = s1.width * s1.height := by
    rw [hs1, Screen.set_length, Screen.set_width, Screen.set_height]; exact hlen0
  have hlen2 : s2.pixels.length = s2.width * s2.height := by
    rw [hs2, Screen.set_length, Screen.set_width, Screen.set_height]; exact hlen1
  have hlen3 : s3.pixels.length = s3.width * s3.height := by
    rw [hs3, Screen.set_length, Screen.set_width, Screen.set_height]; exact hlen2
  have hlen4 : s4.pixels.length = s4.width * s4.height := by
    rw [hs4, Screen.set_length, Screen.set_width, Screen.set_height]; exact hlen3
  have hlen5 : s5.pixels.length = s5.width * s5.height := by
    rw [hs5, Screen.set_length, Screen.set_width, Screen.set_height]; exact hlen4
  have hg5 := Screen.set_getD s5 hlen5 5 5 x y (by omega) (by omega)
    (by rw [hw5]; exact hx) (by rw [hh5]; exact hy)
  have hg4 := Screen.set_getD s4 hlen4 4 4 x y (by omega) (by omega)
    (by rw [hw4]; exact hx) (by rw [hh4]; exact hy)
  have hg3 := Screen.set_getD s3 hlen3 3 3 x y (by omega) (by omega)
    (by rw [hw3]; exact hx) (by rw [hh3]; exact hy)
  have hg2 := Screen.set_getD s2 hlen2 2 2 x y (by omega) (by omega)
    (by rw [hw2]; exact hx) (by rw [hh2]; exact hy)
  have hg1 := Screen.set_getD s1 hlen1 1 1 x y (by omega) (by omega)
    (by rw [hw1]; exact hx) (by rw [hh1]; exact hy)
  have hg0 := Screen.set_getD s0 hlen0 0 0 x y (by omega) (by omega)
    (by rw [hw0]; exact hx) (by rw [hh0]; exact hy)
  rw [hw5] at hg5
  rw [hw4] at hg4
  rw [hw3] at hg3
  rw [hw2] at hg2
  rw [hw1] at hg1
  rw [hw0] at hg0
  show s6.pixels.getD (x + y * w) false = if x = y ∧ x ≤ 5 then true else false
  rw [hs6, hg5, hs5, hg4, hs4, hg3, hs3, hg2, hs2, hg1, hs1, hg0, hs0,
    Screen.new_getD]
  split_ifs <;> first | rfl | omega

/-- Witness for C6 on the exact 6×6 buffer: a diagonal cell is lit, an
off-diagonal cell is dark. -/
theorem draw_line_diagonal_witness :
    ((Screen.new 6 6).draw_line (0, 0) (5, 5)).pixels.getD (3 + 3 * 6) false =
      (if 3 = 3 ∧ 3 ≤ 5 then true else false) ∧
    ((Screen.new 6 6).draw_line (0, 0) (5, 5)).pixels.getD (2 + 3 * 6) false =
      (if 2 = 3 ∧ 2 ≤ 5 then true else false) :=
  ⟨(draw_line_diagonal 6 6 le_rfl le_rfl).1 3 3 (by decide) (by decide),
   (draw_line_diagonal 6 6 le_rfl le_rfl).1 2 3 (by decide) (by decide)⟩

/-- If a `set` call changed a cell value, the call was in bounds and the
changed flat index is the written cell's row-major index. -/
theorem Screen.set_changed (s : Screen) (x y : ℕ) (v : Bool) (i : ℕ)
    (hch : (s.set x y v).pixels.getD i false ≠ s.pixels.getD i false) :
    x < s.width ∧ y < s.height ∧ i = x + y * s.width := by
  unfold Screen.set at hch
  split_ifs at hch with hb
  · refine ⟨hb.1, hb.2, ?_⟩
    by_contra hne
    apply hch
    simp only [List.getD_eq_getElem?_getD, List.getElem?_set]
    rw [if_neg (show ¬(x + y * s.width = i) from fun hcontra => hne hcontra.symm)]
  · exact absurd rfl hch

/-- Unfolding of a non-final `lineVisits` step. -/
theorem lineVisits_succ_of_ne (P : LineParams) (n : ℕ) (x y err : ℤ)
    (hne : ¬(x = P.xe ∧ y = P.ye)) :
    lineVisits P (n + 1) x y err =
      (x, y) ::
        lineVisits P n (if err > -P.dx then x + P.sx else x)
          (if err < P.dy then y + P.sy else y)
          (if err < P.dy then (if err > -P.dx then err - P.dy else err) + P.dx
           else (if err > -P.dx then err - P.dy else err)) := by
  simp only [lineVisits]
  rw [if_neg hne]

/-- Unfolding of the final `lineVisits` step. -/
theorem lineVisits_succ_of_eq (P : LineParams) (n : ℕ) (x y err : ℤ)
    (hx : x = P.xe) (hy : y = P.ye) :
    lineVisits P (n + 1) x y err = [(x, y)] := by
  simp only [lineVisits]
  rw [if_pos ⟨hx, hy⟩]

/-- Every cell the `draw_line` loop changes belongs to an *in-bounds*
visited traversal point, and the dimensions are untouched. -/
theorem lineGo_writes_in_bounds (P : LineParams) :
    ∀ (fuel : ℕ) (st st' : LineState), lineGo P fuel st = some st' →
      st'.scr.width = st.scr.width ∧ st'.scr.height = st.scr.height ∧
      ∀ i : ℕ, st'.scr.pixels.getD i false ≠ st.scr.pixels.getD i false →
        ∃ p ∈ lineVisits P fuel st.x st.y st.err,
          0 ≤ p.1 ∧ p.1 < (st.scr.width : ℤ) ∧ 0 ≤ p.2 ∧ p.2 < (st.scr.height : ℤ) ∧
          i = p.1.toNat + p.2.toNat * st.scr.width := by
  intro fuel
  induction fuel with
  | zero =>
    intro st st' h
    simp [lineGo] at h
  | succ fuel ih =>
    intro st st' h
    by_cases hend : st.x = P.xe ∧ st.y = P.ye
    · rw [lineGo_succ_of_eq P fuel st hend.1 hend.2] at h
      obtain rfl := (Option.some_inj.mp h).symm
      by_cases hbnd : 0 ≤ st.x ∧ st.x < (st.scr.width : ℤ) ∧ 0 ≤ st.y ∧ st.y < (st.scr.height : ℤ)
      · simp only [if_pos hbnd]
        refine ⟨Screen.set_width _ _ _ _, Screen.set_height _ _ _ _, ?_⟩
        intro i hch
        obtain ⟨hxw, hyh, hi⟩ := Screen.set_changed st.scr st.x.toNat st.y.toNat true i hch
        refine ⟨(st.x, st.y), ?_, hbnd.1, hbnd.2.1, hbnd.2.2.1, hbnd.2.2.2, hi⟩
        rw [lineVisits_succ_of_eq P fuel st.x st.y st.err hend.1 hend.2]
        exact List.mem_singleton.mpr rfl
      · rw [if_neg hbnd]
        exact ⟨rfl, rfl, fun i hch => absurd rfl hch⟩
    · rw [lineGo_succ_of_ne P fuel st hend] at h
      rw [lineVisits_succ_of_ne P fuel st.x st.y st.err hend] at *
      generalize hscr : (if 0 ≤ st.x ∧ st.x < (st.scr.width : ℤ) ∧ 0 ≤ st.y ∧
        st.y < (st.scr.height : ℤ) then st.scr.set st.x.toNat st.y.toNat true
        else st.scr) = scr1 at h
      generalize hxn : (if st.err > -P.dx then st.x + P.sx else st.x) = xn at h ⊢
      generalize hyn : (if st.err < P.dy then st.y + P.sy else st.y) = yn at h ⊢
      generalize hez : (if st.err < P.dy then
          (if st.err > -P.dx then st.err - P.dy else st.err) + P.dx
        else (if st.err > -P.dx then st.err - P.dy else st.err)) = erry at h ⊢
      have hchg' : (st'.scr.width = scr1.width ∧ st'.scr.height = scr1.height ∧
          ∀ i : ℕ, st'.scr.pixels.getD i false ≠ scr1.pixels.getD i false →
            ∃ p ∈ lineVisits P fuel xn yn erry,
              0 ≤ p.1 ∧ p.1 < (scr1.width : ℤ) ∧ 0 ≤ p.2 ∧ p.2 < (scr1.height : ℤ) ∧
              i = p.1.toNat + p.2.toNat * scr1.width) := ih ⟨xn, yn, erry, scr1⟩ st' h
      obtain ⟨hw2, hh2, hchg⟩ := hchg'
      have hs1w : scr1.width = st.scr.width := by
        rw [← hscr]
        split_ifs
        · rw [Screen.set_width]
        · rfl
      have hs1h : scr1.height = st.scr.height := by
        rw [← hscr]
        split_ifs
        · rw [Screen.set_height]
        · rfl
      refine ⟨by rw [hw2, hs1w], by rw [hh2, hs1h], ?_⟩
      intro i hch
      by_cases hmid : st'.scr.pixels.getD i false = scr1.pixels.getD i false
      · -- the change happened in this iteration's write
        rw [hmid] at hch
        by_cases hbnd : 0 ≤ st.x ∧ st.x < (st.scr.width : ℤ) ∧ 0 ≤ st.y ∧
            st.y < (st.scr.height : ℤ)
        · rw [if_pos hbnd] at hscr
          rw [← hscr] at hch
          obtain ⟨hxw, hyh, hi⟩ := Screen.set_changed st.scr st.x.toNat st.y.toNat true i hch
          exact ⟨(st.x, st.y), List.mem_cons_self _ _,
            hbnd.1, hbnd.2.1, hbnd.2.2.1, hbnd.2.2.2, hi⟩
        · rw [if_neg hbnd] at hscr
          rw [← hscr] at hch
          exact absurd rfl hch
      · obtain ⟨p, hmem, h1, h2, h3, h4, hi⟩ := hchg i hmid
        rw [hs1w] at h2 hi
        rw [hs1h] at h4
        exact ⟨p, List.mem_cons_of_mem _ hmem, h1, h2, h3, h4, hi⟩

/-- C9: whenever `draw_line` changes a cell of the buffer, that cell is
the row-major index of an *in-bounds* point on the traversal — the loop
never writes outside `[0,width) × [0,height)`, and traversal points that
fall off the buffer are skipped rather than written. -/
theorem draw_line_writes_only_in_bounds (s : Screen) (start endp : ℕ × ℕ) (i : ℕ)
    (hch : (s.draw_line start endp).pixels.getD i false ≠ s.pixels.getD i false) :
    ∃ p ∈ lineVisits (mkLineParams start endp)
        ((mkLineParams start endp).dx.toNat + (mkLineParams start endp).dy.toNat + 1)
        (mkLineParams start endp).x0 (mkLineParams start endp).y0
        (mkLineParams start endp).err0,
      0 ≤ p.1 ∧ p.1 < (s.width : ℤ) ∧ 0 ≤ p.2 ∧ p.2 < (s.height : ℤ) ∧
      i = p.1.toNat + p.2.toNat * s.width := by
  rw [Screen.draw_line_def] at hch
  cases hGo : lineGo (mkLineParams start endp)
      ((mkLineParams start endp).dx.toNat + (mkLineParams start endp).dy.toNat + 1)
      ⟨(mkLineParams start endp).x0, (mkLineParams start endp).y0,
       (mkLineParams start endp).err0, s⟩ with
  | none =>
    rw [hGo] at hch
    exact absurd rfl hch
  | some st' =>
    rw [hGo] at hch
    exact (lineGo_writes_in_bounds (mkLineParams start endp) _ _ st' hGo).2.2 i hch

/-- Witness for C9: drawing the one-point line `(0,0)–(0,0)` on a 2×2
buffer changes cell 0, and the change is accounted for by an in-bounds
visited point. -/
theorem draw_line_writes_only_in_bounds_witness :
    (((Screen.new 2 2).draw_line (0, 0) (0, 0)).pixels.getD 0 false ≠
      (Screen.new 2 2).pixels.getD 0 false) ∧
    ∃ p ∈ lineVisits (mkLineParams (0, 0) (0, 0))
        ((mkLineParams (0, 0) (0, 0)).dx.toNat + (mkLineParams (0, 0) (0, 0)).dy.toNat + 1)
        (mkLineParams (0, 0) (0, 0)).x0 (mkLineParams (0, 0) (0, 0)).y0
        (mkLineParams (0, 0) (0, 0)).err0,
      0 ≤ p.1 ∧ p.1 < ((Screen.new 2 2).width : ℤ) ∧ 0 ≤ p.2 ∧
        p.2 < ((Screen.new 2 2).height : ℤ) ∧
      0 = p.1.toNat + p.2.toNat * (Screen.new 2 2).width := by
  have hMk : mkLineParams (0, 0) (0, 0) = ⟨0, 0, 0, 0, 0, 0, -1, -1, 0⟩ := by
    simp only [mkLineParams]
    norm_num
  have hch : ((Screen.new 2 2).draw_line (0, 0) (0, 0)).pixels.getD 0 false ≠
      (Screen.new 2 2).pixels.getD 0 false := by
    rw [Screen.draw_line_def, hMk]
    decide
  exact ⟨hch, draw_line_writes_only_in_bounds (Screen.new 2 2) (0, 0) (0, 0) 0 hch⟩

/-- Unfolding of one `chunks` step on a nonempty pixel list. -/
theorem chunksGo_cons (w : ℕ) (l : List Bool) (hw : 0 < w) (hne : l ≠ []) :
    chunksGo w l = l.take w :: chunksGo w (l.drop w) := by
  rw [chunksGo]
  rw [dif_pos ⟨hw, hne⟩]

/-- A serialized row prefix equals the indexed character map. -/
theorem take_map_row (w : ℕ) (l : List Bool) (hwl : w ≤ l.length) :
    (l.take w).map pixChar =
      (List.range w).map (fun x => pixChar (l.getD x false)) := by
  apply List.ext_getElem?
  intro i
  rw [List.getElem?_map, List.getElem?_map, List.getElem?_take]
  by_cases hi : i < w
  · rw [if_pos hi, List.getElem?_range hi]
    have hil : i < l.length := by omega
    rw [List.getElem?_eq_getElem hil]
    simp [List.getD_eq_getElem?_getD, List.getElem?_eq_getElem hil]
  · rw [if_neg hi]
    have : ¬ i < w := hi
    rw [List.getElem?_eq_none (by simpa using hi : (List.range w).length ≤ i)]
    rfl

/-- The serialization of a `w × h` pixel list is `h` rows, each of `w`
mapped characters followed by a newline, in increasing row order. -/
theorem build_rows : ∀ (h w : ℕ) (l : List Bool), 0 < w → l.length = w * h →
    ((chunksGo w l).map (fun row => row.map pixChar ++ ['\n'])).flatten =
      (List.range h).flatMap
        (fun y => (List.range w).map (fun x => pixChar (l.getD (x + y * w) false)) ++ ['\n']) := by
  intro h
  induction h with
  | zero =>
    intro w l hw hlen
    have : l = [] := List.length_eq_zero.mp (by omega)
    subst this
    rw [chunksGo]
    rw [dif_neg (by simp)]
    simp
  | succ h ih =>
    intro w l hw hlen
    have hne : l ≠ [] := by
      intro hnil
      rw [hnil] at hlen
      simp at hlen
      omega
    rw [chunksGo_cons w l hw hne]
    rw [List.map_cons, List.flatten_cons]
    have hdrop : (l.drop w).length = w * h := by
      rw [List.length_drop, hlen]
      ring_nf
      omega
    rw [ih w (l.drop w) hw hdrop]
    rw [List.range_succ_eq_map, List.flatMap_cons, List.flatMap_map]
    congr 1
    · -- head row
      rw [take_map_row w l (by rw [hlen]; exact Nat.le_mul_of_pos_right w (by omega))]
      congr 1
      apply List.map_congr_left
      intro x hx
      simp
    · -- remaining rows, shifted by one
      have hfun : ∀ y : ℕ,
          (List.map (fun x => pixChar ((l.drop w).getD (x + y * w) false))
            (List.range w) ++ ['\n']) =
          (List.map (fun x => pixChar (l.getD (x + Nat.succ y * w) false))
            (List.range w) ++ ['\n']) := by
        intro y
        congr 1
        apply List.map_congr_left
        intro x hx
        have hidx : w + (x + y * w) = x + Nat.succ y * w := by
          simp only [Nat.succ_eq_add_one]
          ring
        rw [List.getD_eq_getElem?_getD, List.getD_eq_getElem?_getD,
          List.getElem?_drop, hidx]
      exact congrArg (List.range h).flatMap (funext hfun)

/-- Indexing into a concatenation of fixed-length blocks: position
`j * (w+1) + x` with `x < w+1` falls in block `j`. -/
theorem flatMap_blocks_getElem (w : ℕ) (g : ℕ → List Char)
    (hg : ∀ y, (g y).length = w + 1) :
    ∀ (ys : List ℕ) (j x : ℕ), x < w + 1 → j < ys.length →
      (ys.flatMap g)[j * (w + 1) + x]? = (g (ys.getD j 0))[x]? := by
  intro ys
  induction ys with
  | nil =>
    intro j x hx hj
    simp at hj
  | cons y ys ih =>
    intro j x hx hj
    cases j with
    | zero =>
      have hzero : 0 * (w + 1) + x = x := by ring
      rw [List.flatMap_cons, hzero, List.getElem?_append]
      rw [if_pos (by rw [hg y]; omega)]
      rfl
    | succ j =>
      have hexp : (j + 1) * (w + 1) + x = (w + 1) + (j * (w + 1) + x) := by ring
      rw [List.flatMap_cons, hexp,
        List.getElem?_append_right (by rw [hg y]; exact Nat.le_add_right _ _)]
      rw [hg y, Nat.add_sub_cancel_left]
      exact ih j x hx (by simpa using hj)

/-- The serialization row form, stated on a screen satisfying the pixel
count invariant. -/
theorem Screen.build_spec (s : Screen) (hw : 0 < s.width)
    (hlen : s.pixels.length = s.width * s.height) :
    s.build = (List.range s.height).flatMap
      (fun y => (List.range s.width).map
        (fun x => pixChar (s.pixels.getD (x + y * s.width) false)) ++ ['\n']) := by
  unfold Screen.build
  exact build_rows s.height s.width s.pixels hw hlen

/-- C5: `build` serializes any invariant-respecting buffer as `height`
rows in increasing y order, each row being `width` characters (`.` for a
lit cell, a space for a dark cell) followed by a newline; and on an
otherwise-fresh buffer, after an in-bounds `set (x, y) true` the
character at row `y'`, column `x'` is `.` exactly at `(x, y)` and a
space everywhere else. -/
theorem serialize_spec :
    (∀ s : Screen, 0 < s.width → s.pixels.length = s.width * s.height →
      s.build = (List.range s.height).flatMap
        (fun y => (List.range s.width).map
          (fun x => pixChar (s.pixels.getD (x + y * s.width) false)) ++ ['\n'])) ∧
    (∀ w h x y : ℕ, 0 < w → x < w → y < h → ∀ x' y' : ℕ, x' < w → y' < h →
      (((Screen.new w h).set x y true).build)[y' * (w + 1) + x']? =
        some (if x' = x ∧ y' = y then '.' else ' ')) := by
  constructor
  · exact fun s hw hlen => Screen.build_spec s hw hlen
  · intro w h x y hw hx hy x' y' hx' hy'
    have hsw : ((Screen.new w h).set x y true).width = w := by
      rw [Screen.set_width]; rfl
    have hsh : ((Screen.new w h).set x y true).height = h := by
      rw [Screen.set_height]; rfl
    have hslen : ((Screen.new w h).set x y true).pixels.length =
        ((Screen.new w h).set x y true).width * ((Screen.new w h).set x y true).height := by
      rw [Screen.set_length, hsw, hsh]
      show (List.replicate (w * h) false).length = w * h
      simp
    rw [Screen.build_spec _ (by rw [hsw]; exact hw) hslen]
    rw [hsw, hsh]
    have hblk := flatMap_blocks_getElem w
      (fun yy => (List.range w).map
        (fun xx => pixChar (((Screen.new w h).set x y true).pixels.getD
          (xx + yy * w) false)) ++ ['\n'])
      (by intro yy; simp)
      (List.range h) y' x' (by omega) (by simpa using hy')
    rw [hblk]
    have hgetd : (List.range h).getD y' 0 = y' := by
      rw [List.getD_eq_getElem?_getD, List.getElem?_range hy']
      rfl
    rw [hgetd]
    rw [List.getElem?_append]
    rw [if_pos (by simpa using hx')]
    rw [List.getElem?_map, List.getElem?_range hx']
    simp only [Option.map_some']
    have hpix : ((Screen.new w h).set x y true).pixels.getD (x' + y' * w) false =
        if x' = x ∧ y' = y then true else false := by
      have h2 : ((Screen.new w h).set x y true).pixels.getD (x' + y' * w) false =
          if x' = x ∧ y' = y then true
          else (Screen.new w h).pixels.getD (x' + y' * w) false :=
        Screen.set_getD (Screen.new w h) (by simp [Screen.new]) x y x' y' hx hy hx' hy'
      rw [h2, Screen.new_getD]
    rw [hpix]
    show some (pixChar (if x' = x ∧ y' = y then true else false)) = _
    split_ifs <;> rfl

/-- Witness for C5 on a 2×2 buffer with `set (0, 0) true`: the four cell
characters of the serialized text. -/
theorem serialize_spec_witness :
    (((Screen.new 2 2).set 0 0 true).build)[0 * (2 + 1) + 0]? =
      some (if 0 = 0 ∧ 0 = 0 then '.' else ' ') ∧
    (((Screen.new 2 2).set 0 0 true).build)[0 * (2 + 1) + 1]? =
      some (if 1 = 0 ∧ 0 = 0 then '.' else ' ') ∧
    (((Screen.new 2 2).set 0 0 true).build)[1 * (2 + 1) + 0]? =
      some (if 0 = 0 ∧ 1 = 0 then '.' else ' ') ∧
    (((Screen.new 2 2).set 0 0 true).build)[1 * (2 + 1) + 1]? =
      some (if 1 = 0 ∧ 1 = 0 then '.' else ' ') :=
  ⟨serialize_spec.2 2 2 0 0 (by decide) (by decide) (by decide) 0 0 (by decide) (by decide),
   serialize_spec.2 2 2 0 0 (by decide) (by decide) (by decide) 1 0 (by decide) (by decide),
   serialize_spec.2 2 2 0 0 (by decide) (by decide) (by decide) 0 1 (by decide) (by decide),
   serialize_spec.2 2 2 0 0 (by decide) (by decide) (by decide) 1 1 (by decide) (by decide)⟩

/-- `rotate_point` as sequential application of the three axis matrices
(shared helper form of the product associativity). -/
theorem rotate_point_seq (p r : Vec3 ℝ) :
    rotate_point p r =
      (rotXMat r.x).mulVec ((rotYMat r.y).mulVec ((rotZMat r.z).mulVec p)) := by
  simp only [rotate_point, rotXMat, rotYMat, rotZMat, Mat3.mul, Mat3.mulVec]
  ext <;> ring

/-- The X-axis rotation matrix preserves the squared norm. -/
theorem rotXMat_mulVec_norm (θ : ℝ) (v : Vec3 ℝ) :
    ((rotXMat θ).mulVec v).x ^ 2 + ((rotXMat θ).mulVec v).y ^ 2 +
      ((rotXMat θ).mulVec v).z ^ 2 = v.x ^ 2 + v.y ^ 2 + v.z ^ 2 := by
  simp only [rotXMat, Mat3.mulVec]
  linear_combination (v.y ^ 2 + v.z ^ 2) * Real.sin_sq_add_cos_sq θ

/-- The Y-axis rotation matrix preserves the squared norm. -/
theorem rotYMat_mulVec_norm (θ : ℝ) (v : Vec3 ℝ) :
    ((rotYMat θ).mulVec v).x ^ 2 + ((rotYMat θ).mulVec v).y ^ 2 +
      ((rotYMat θ).mulVec v).z ^ 2 = v.x ^ 2 + v.y ^ 2 + v.z ^ 2 := by
  simp only [rotYMat, Mat3.mulVec]
  linear_combination (v.x ^ 2 + v.z ^ 2) * Real.sin_sq_add_cos_sq θ

/-- The Z-axis rotation matrix preserves the squared norm. -/
theorem rotZMat_mulVec_norm (θ : ℝ) (v : Vec3 ℝ) :
    ((rotZMat θ).mulVec v).x ^ 2 + ((rotZMat θ).mulVec v).y ^ 2 +
      ((rotZMat θ).mulVec v).z ^ 2 = v.x ^ 2 + v.y ^ 2 + v.z ^ 2 := by
  simp only [rotZMat, Mat3.mulVec]
  linear_combination (v.x ^ 2 + v.y ^ 2) * Real.sin_sq_add_cos_sq θ

/-- `rotate_point` preserves the squared norm of the point, for every
angle triple. -/
theorem rotate_point_norm (p r : Vec3 ℝ) :
    (rotate_point p r).x ^ 2 + (rotate_point p r).y ^ 2 + (rotate_point p r).z ^ 2 =
      p.x ^ 2 + p.y ^ 2 + p.z ^ 2 := by
  rw [rotate_point_seq]
  rw [rotXMat_mulVec_norm, rotYMat_mulVec_norm, rotZMat_mulVec_norm]

/-- Every point of squared norm `3` (in particular every rotated cube
vertex) projects successfully under `main`'s camera and screen: the
camera-space depth is at least `5 - √3 > 0` and the screen coordinates
stay strictly inside the 160×80 buffer. -/
theorem project_cube_vertex_isSome (v : Vec3 ℝ)
    (hn : v.x ^ 2 + v.y ^ 2 + v.z ^ 2 = 3) :
    ((Screen.new 160 80).project_3d_pointR v camera_position 1).isSome = true := by
  have h5 : (0 : ℝ) < v.z - (-5) := by
    nlinarith [sq_nonneg v.x, sq_nonneg v.y, sq_nonneg (v.z + 5)]
  have hxlt : v.x - 0 < v.z - (-5) := by
    nlinarith [sq_nonneg (v.x + v.z), sq_nonneg v.y, sq_nonneg (v.x - v.z - 5)]
  have hygt : -(v.z - (-5)) < v.y - 2 := by
    nlinarith [sq_nonneg (v.y - v.z), sq_nonneg v.x, sq_nonneg (v.y + v.z + 3)]
  have hpx : 1 / (v.z - (-5)) * (v.x - 0) < 1 := by
    rw [div_mul_eq_mul_div, one_mul, div_lt_one h5]
    exact hxlt
  have hpy : (-1 : ℝ) < 1 / (v.z - (-5)) * (v.y - 2) := by
    rw [div_mul_eq_mul_div, one_mul, lt_div_iff h5]
    linarith
  have hfx : (⌊(1 / (v.z - (-5)) * (v.x - 0) + 1) * 0.5 * ((160 : ℕ) : ℝ)⌋ : ℤ) < 160 := by
    apply Int.floor_lt.mpr
    push_cast
    linarith
  have hfy : (⌊(1 - (1 / (v.z - (-5)) * (v.y - 2) + 1) * 0.5) * ((80 : ℕ) : ℝ)⌋ : ℤ) < 80 := by
    apply Int.floor_lt.mpr
    push_cast
    linarith
  unfold Screen.project_3d_pointR realToUsize
  simp only [Vec3.sub, camera_position, Screen.new]
  split_ifs with h1 h2
  · rfl
  · exfalso
    apply h2
    constructor
    · omega
    · omega
  · exact absurd h5 h1
  · exact absurd h5 h1

/-- When every element maps to `some`, `filterMap` drops nothing: the
result has the same length and is index-aligned with the input. -/
theorem filterMap_all_some {α β : Type} (f : α → Option β) :
    ∀ l : List α, (∀ a ∈ l, (f a).isSome = true) →
      (l.filterMap f).length = l.length ∧
      ∀ (i : ℕ) (d : α), i < l.length → (l.filterMap f)[i]? = f (l.getD i d) := by
  intro l
  induction l with
  | nil =>
    intro hall
    exact ⟨rfl, fun i d hi => absurd hi (by simp)⟩
  | cons a l ih =>
    intro hall
    obtain ⟨b, hb⟩ := Option.isSome_iff_exists.mp (hall a (List.mem_cons_self a l))
    obtain ⟨hlen, hidx⟩ := ih (fun x hx => hall x (List.mem_cons_of_mem a hx))
    rw [List.filterMap_cons, hb]
    constructor
    · simp [hlen]
    · intro i d hi
      cases i with
      | zero =>
        rw [List.getElem?_cons_zero]
        show some b = f a
        rw [hb]
      | succ i =>
        rw [List.getElem?_cons_succ]
        exact hidx i d (by simpa using hi)

/-- When both endpoint lookups of every edge hit, `drawEdges` draws, for
every edge, the line between the looked-up projections. -/
theorem drawEdges_total (proj : List (ℕ × ℕ)) :
    ∀ (edges : List (ℕ × ℕ)) (s : Screen),
      (∀ e ∈ edges, (proj[e.1]?).isSome = true ∧ (proj[e.2]?).isSome = true) →
      drawEdges s proj edges =
        edges.foldl
          (fun scr e => scr.draw_line (proj.getD e.1 (0, 0)) (proj.getD e.2 (0, 0))) s := by
  intro edges
  induction edges with
  | nil =>
    intro s hall
    rfl
  | cons e es ih =>
    intro s hall
    obtain ⟨h1, h2⟩ := hall e (List.mem_cons_self e es)
    obtain ⟨p0, hp0⟩ := Option.isSome_iff_exists.mp h1
    obtain ⟨p1, hp1⟩ := Option.isSome_iff_exists.mp h2
    have hstep : drawEdges s proj (e :: es) = drawEdges (s.draw_line p0 p1) proj es := by
      unfold drawEdges
      rw [List.foldl_cons]
      congr 1
      rw [hp0, hp1]
    rw [hstep, List.foldl_cons]
    have hg0 : proj.getD e.1 (0, 0) = p0 := by
      rw [List.getD_eq_getElem?_getD, hp0]
      rfl
    have hg1 : proj.getD e.2 (0, 0) = p1 := by
      rw [List.getD_eq_getElem?_getD, hp1]
      rfl
    rw [hg0, hg1]
    exact ih (s.draw_line p0 p1) (fun x hx => hall x (List.mem_cons_of_mem e hx))

/-- C1: in every animation cycle (for every rotation angle), the
projection list is parallel to and index-aligned with the rotated vertex
list — every vertex projects successfully, so the `filter_map` drops
nothing — and the edge pass draws, for every edge `(i, j)`, the line
connecting the projection of vertex `i` to the projection of vertex `j`. -/
theorem projection_parallel_and_edges_drawn (θ : ℝ) :
    (projectedPoints (Screen.new 160 80) (rotatedPoints θ) camera_position 1).length =
      (rotatedPoints θ).length ∧
    (∀ i : ℕ, i < (rotatedPoints θ).length →
      (projectedPoints (Screen.new 160 80) (rotatedPoints θ) camera_position 1)[i]? =
        (Screen.new 160 80).project_3d_pointR ((rotatedPoints θ).getD i ⟨0, 0, 0⟩)
          camera_position 1 ∧
      ((Screen.new 160 80).project_3d_pointR ((rotatedPoints θ).getD i ⟨0, 0, 0⟩)
          camera_position 1).isSome = true) ∧
    drawEdges (Screen.new 160 80)
        (projectedPoints (Screen.new 160 80) (rotatedPoints θ) camera_position 1)
        cube_edges =
      cube_edges.foldl
        (fun scr e => scr.draw_line
          ((projectedPoints (Screen.new 160 80) (rotatedPoints θ)
            camera_position 1).getD e.1 (0, 0))
          ((projectedPoints (Screen.new 160 80) (rotatedPoints θ)
            camera_position 1).getD e.2 (0, 0)))
        (Screen.new 160 80) := by
  have hall : ∀ v ∈ rotatedPoints θ,
      ((Screen.new 160 80).project_3d_pointR v camera_position 1).isSome = true := by
    intro v hv
    obtain ⟨u, hu, rfl⟩ := List.mem_map.mp hv
    apply project_cube_vertex_isSome
    rw [rotate_point_norm]
    have hu' : u ∈ [(⟨-1, -1, -1⟩ : Vec3 ℝ), ⟨1, -1, -1⟩, ⟨1, 1, -1⟩, ⟨-1, 1, -1⟩,
        ⟨-1, -1, 1⟩, ⟨1, -1, 1⟩, ⟨1, 1, 1⟩, ⟨-1, 1, 1⟩] := hu
    fin_cases hu' <;> norm_num
  obtain ⟨hlen, hidx⟩ :=
    filterMap_all_some
      (fun p => (Screen.new 160 80).project_3d_pointR p camera_position 1)
      (rotatedPoints θ) hall
  have hidx' : ∀ (i : ℕ) (d : Vec3 ℝ), i < (rotatedPoints θ).length →
      (projectedPoints (Screen.new 160 80) (rotatedPoints θ) camera_position 1)[i]? =
        (Screen.new 160 80).project_3d_pointR ((rotatedPoints θ).getD i d)
          camera_position 1 := hidx
  have hgetD_mem : ∀ i : ℕ, i < (rotatedPoints θ).length →
      (rotatedPoints θ).getD i ⟨0, 0, 0⟩ ∈ rotatedPoints θ := by
    intro i hi
    rw [List.getD_eq_getElem (rotatedPoints θ) ⟨0, 0, 0⟩ hi]
    exact List.getElem_mem hi
  have hlen8 : (rotatedPoints θ).length = 8 := by
    simp [rotatedPoints, cube_vertices]
  have hedges : ∀ e ∈ cube_edges, e.1 < 8 ∧ e.2 < 8 := by decide
  refine ⟨hlen, ?_, ?_⟩
  · intro i hi
    exact ⟨hidx i ⟨0, 0, 0⟩ hi, hall _ (hgetD_mem i hi)⟩
  · apply drawEdges_total
    intro e he
    obtain ⟨he1, he2⟩ := hedges e he
    constructor
    · rw [hidx' e.1 ⟨0, 0, 0⟩ (by omega)]
      exact hall _ (hgetD_mem e.1 (by omega))
    · rw [hidx' e.2 ⟨0, 0, 0⟩ (by omega)]
      exact hall _ (hgetD_mem e.2 (by omega))

/-- Witness for C1 at the cycle `θ = 0`, vertex index `0` and the first
edge: the inner hypotheses are discharged at concrete values. -/
theorem projection_parallel_and_edges_drawn_witness :
    (projectedPoints (Screen.new 160 80) (rotatedPoints 0) camera_position 1).length =
      (rotatedPoints 0).length ∧
    (projectedPoints (Screen.new 160 80) (rotatedPoints 0) camera_position 1)[0]? =
      (Screen.new 160 80).project_3d_pointR ((rotatedPoints 0).getD 0 ⟨0, 0, 0⟩)
        camera_position 1 ∧
    ((Screen.new 160 80).project_3d_pointR ((rotatedPoints 0).getD 0 ⟨0, 0, 0⟩)
        camera_position 1).isSome = true :=
  ⟨(projection_parallel_and_edges_drawn 0).1,
   ((projection_parallel_and_edges_drawn 0).2.1 0
     (by simp [rotatedPoints, cube_vertices])).1,
   ((projection_parallel_and_edges_drawn 0).2.1 0
     (by simp [rotatedPoints, cube_vertices])).2⟩
